import Mathlib

/-!
Verification of the wordleFilter repository's core logic: the
feedback-consistency filter (`WordleFilter.py`), the guess data model
(`WordleGuess.py`, `Word.py`) and the candidate-ranking heuristic
(`WordleScorer.py`).  Python words are embedded as `List Char`; the
letter-count dictionaries (keyed by the 26 lowercase letters in the
source) are embedded as total functions `Char → Nat`; fallible Python
code (`ValueError`, `ZeroDivisionError`) is embedded with
`Except`/`Option`.
-/

namespace WordleSpec

/-- Embeds `LETTERS_IN_WORD = 5` (Word.py). -/
def LETTERS_IN_WORD : Nat := 5

/-- Embeds the `LetterColor` enumeration (WordleGuess.py): GREEN = 0, YELLOW = 1, GREY = 2. -/
inductive LetterColor where
  | GREEN
  | YELLOW
  | GREY
deriving DecidableEq, Repr

open LetterColor

/-- Embeds `WordleGuess` (WordleGuess.py): the guessed word plus the per-letter
color list.  The `location_dict` cached by the Python constructor is a
pure function of `color_list`; it is embedded as the derived function
`create_location_dict` below. -/
structure WordleGuess where
  word : List Char
  color_list : List LetterColor
deriving DecidableEq, Repr

/-- Embeds `WordleGuess._create_location_dict` (WordleGuess.py lines 53-70): for
each index `i` of the color list, in increasing order, append `i` to the
list held under `color_list[i]`.  The dictionary is embedded as a function
from colors to index lists. -/
def create_location_dict (color_list : List LetterColor) : LetterColor → List Nat :=
  (List.range color_list.length).foldl
    (fun d i => fun c => if color_list.getD i GREY = c then d c ++ [i] else d c)
    (fun _ => [])

/-- Embeds `guess.location_dict[LetterColor.GREEN]` in `_filter_word_list`. -/
def green_index_list (g : WordleGuess) : List Nat :=
  create_location_dict g.color_list GREEN

/-- Embeds `guess.location_dict[LetterColor.YELLOW]` in `_filter_word_list`. -/
def yellow_index_list (g : WordleGuess) : List Nat :=
  create_location_dict g.color_list YELLOW

/-- Embeds `guess.location_dict[LetterColor.GREY]` in `_filter_word_list`. -/
def grey_index_list (g : WordleGuess) : List Nat :=
  create_location_dict g.color_list GREY

/-- The green check of `_filter_word_list` (WordleFilter.py lines 205-208):
the word is removed when some green index holds a different letter. -/
def green_removes (g : WordleGuess) (w : List Char) : Bool :=
  (green_index_list g).any fun i => w.getD i ' ' ≠ g.word.getD i ' '

/-- The yellow check of `_filter_word_list` (lines 213-221): a word is
removed when, for some yellow index `i`, the guessed letter is absent from
the word or sits exactly at index `i`. -/
def yellow_removes (g : WordleGuess) (w : List Char) : Bool :=
  (yellow_index_list g).any fun i =>
    ¬ w.contains (g.word.getD i ' ') ∨ w.getD i ' ' = g.word.getD i ' '

/-- Embeds `available_letters` of `_filter_word_list` (line 227): the word's
letters at positions that are not green in the feedback. -/
def available_letters (g : WordleGuess) (w : List Char) : List Char :=
  (List.range w.length).filterMap fun j =>
    if j ∈ green_index_list g then none else some (w.getD j ' ')

/-- The grey check of `_filter_word_list` (lines 225-231): a word is
removed when some grey-indexed guess letter occurs among the word's
non-green letters. -/
def grey_removes (g : WordleGuess) (w : List Char) : Bool :=
  (grey_index_list g).any fun i => (available_letters g w).contains (g.word.getD i ' ')

/-- The per-word removal decision of `_filter_word_list`: the Python
`for…else` ladder removes a word (at most once, then breaks) exactly when
one of the three checks fires. -/
def should_remove (g : WordleGuess) (w : List Char) : Bool :=
  green_removes g w || yellow_removes g w || grey_removes g w

/-- Embeds `WordleFilter._filter_word_list` (WordleFilter.py lines 191-231): the
loop iterates over a copy of the remaining list and calls
`remaining_word_list.remove(word)` (removal of the first occurrence by
equality) on each word one of the checks rejects. -/
def filter_word_list (g : WordleGuess) (l : List (List Char)) : List (List Char) :=
  l.foldl (fun acc w => if should_remove g w then acc.erase w else acc) l

/-- Embeds the `WordleFilter` session state (WordleFilter.py lines 159-181): the
remaining word list and the guess history. -/
structure WordleFilter where
  remaining_word_list : List (List Char)
  guess_list : List WordleGuess
deriving DecidableEq, Repr

/-- Embeds `WordleFilter.add_guess` (lines 172-181): unconditionally append the
guess to the history, then filter the remaining word list. -/
def add_guess (s : WordleFilter) (g : WordleGuess) : WordleFilter :=
  { remaining_word_list := filter_word_list g s.remaining_word_list,
    guess_list := s.guess_list ++ [g] }

/-- Modelled from the spec: first pass of the canonical coloring algorithm
(spec §4.2 steps 1-2), which is absent from the source.  Start the
per-letter remaining-count table at the letter frequency of the candidate
`c`, then for every position where `g` and `c` agree decrement `c`'s
remaining count for that letter by one. -/
def counts_after_greens (g c : List Char) : Char → Nat :=
  (List.range g.length).foldl
    (fun cnt i =>
      if g.getD i ' ' = c.getD i ' ' then
        fun x => if x = c.getD i ' ' then cnt x - 1 else cnt x
      else cnt)
    (fun ch => c.count ch)

/-- Modelled from the spec: second pass of the canonical coloring algorithm
(spec §4.2 step 3), absent from the source.  In increasing position order,
a position where guess and candidate agree is Correct (GREEN); otherwise
the position is Present (YELLOW) when the remaining count of its guess
letter is positive (decrementing it), else Absent (GREY). -/
def color_pass (cnt : Char → Nat) : List (Char × Bool) → List LetterColor
  | [] => []
  | (ch, isGreen) :: rest =>
    if isGreen then GREEN :: color_pass cnt rest
    else if 0 < cnt ch then
      YELLOW :: color_pass (fun x => if x = ch then cnt x - 1 else cnt x) rest
    else GREY :: color_pass cnt rest

/-- Modelled from the spec: the canonical two-pass coloring algorithm of
spec §4.2 ("expected feedback" of guessing `g` against target `c`), which
the source does not implement. -/
def expected_feedback (g c : List Char) : List LetterColor :=
  color_pass (counts_after_greens g c)
    ((List.range g.length).map fun i => (g.getD i ' ', g.getD i ' ' == c.getD i ' '))

/-- Concrete word "arars" used by the spec's duplicate-letter test case. -/
def arars_word : List Char := "arars".toList

/-- Concrete word "briar" used by the spec's duplicate-letter test case. -/
def briar_word : List Char := "briar".toList

/-- The guess "arars" together with the canonical feedback it receives
against the target "briar": r at index 1 is Correct, the first a and the
second r are Present, the second a and the s are Absent. -/
def arars_guess : WordleGuess :=
  ⟨arars_word, [YELLOW, GREEN, GREY, YELLOW, GREY]⟩

/-- A session state whose history already holds `arars_guess`. -/
def demo_state : WordleFilter :=
  ⟨[briar_word], [arars_guess]⟩

/-- Each step of the removal loop of `_filter_word_list` erases at most one
element, so the loop yields a sublist of the running list. -/
theorem foldl_erase_sublist (g : WordleGuess) :
    ∀ (ts cur : List (List Char)),
      (ts.foldl (fun acc w => if should_remove g w then acc.erase w else acc) cur).Sublist cur
  | [], cur => List.Sublist.refl cur
  | t :: ts, cur => by
    rw [List.foldl_cons]
    refine List.Sublist.trans (foldl_erase_sublist g ts _) ?_
    by_cases h : should_remove g t
    · simpa [h] using List.erase_sublist t cur
    · simp [h]

/-- On a duplicate-free running list, the removal loop of
`_filter_word_list` keeps exactly the elements that either pass the checks
or are never visited by the loop. -/
theorem foldl_erase_eq_filter (g : WordleGuess) :
    ∀ (ts cur : List (List Char)), cur.Nodup →
      ts.foldl (fun acc w => if should_remove g w then acc.erase w else acc) cur
        = cur.filter (fun x => !(should_remove g x && decide (x ∈ ts)))
  | [], cur, _ => by simp
  | t :: ts, cur, h => by
    have hstep : (if should_remove g t then cur.erase t else cur).Nodup := by
      by_cases hs : should_remove g t
      · simpa [hs] using h.erase t
      · simpa [hs] using h
    rw [List.foldl_cons, foldl_erase_eq_filter g ts _ hstep]
    by_cases hs : should_remove g t
    · rw [if_pos hs, List.Nodup.erase_eq_filter h t, List.filter_filter]
      refine List.filter_congr fun x _ => ?_
      by_cases hxt : x = t
      · subst hxt; simp [hs]
      · simp [hxt, List.mem_cons]
    · rw [if_neg hs]
      refine List.filter_congr fun x _ => ?_
      by_cases hxt : x = t
      · subst hxt
        have hfalse : should_remove g x = false := by simpa using hs
        simp [hfalse]
      · simp [hxt, List.mem_cons]

/-- Fact: `_filter_word_list` always yields a sublist of the incoming remaining
word list. -/
theorem filter_word_list_sublist (g : WordleGuess) (l : List (List Char)) :
    (filter_word_list g l).Sublist l :=
  foldl_erase_sublist g l l

/-- On a duplicate-free remaining list, `_filter_word_list` is the
pointwise retain-filter by `should_remove`. -/
theorem filter_word_list_eq_filter (g : WordleGuess) (l : List (List Char))
    (h : l.Nodup) :
    filter_word_list g l = l.filter (fun w => !should_remove g w) := by
  rw [filter_word_list, foldl_erase_eq_filter g l l h]
  exact List.filter_congr fun x hx => by simp [hx]

/-- Filtering twice by the same guess equals filtering once, on
duplicate-free lists. -/
theorem filter_word_list_idem (g : WordleGuess) (l : List (List Char))
    (h : l.Nodup) :
    filter_word_list g (filter_word_list g l) = filter_word_list g l := by
  rw [filter_word_list_eq_filter g l h,
      filter_word_list_eq_filter g _ (h.filter _), List.filter_filter]
  exact List.filter_congr fun x _ => by cases should_remove g x <;> rfl

/-- C1: the claim fails on the code.  The canonical two-pass coloring of
guessing "arars" against target "briar" is exactly
[Present, Correct, Absent, Present, Absent], so the claimed filter would
retain "briar"; the implemented `_filter_word_list` instead removes it
(its grey check sees the letter a among "briar"'s non-green letters). -/
theorem filter_decision_not_canonical :
    expected_feedback arars_word briar_word = arars_guess.color_list ∧
    filter_word_list arars_guess [briar_word] = [] := by decide

/-- C2: solution retention fails on the code.  Filtering by the true
(canonical) feedback of guess "arars" against target "briar" eliminates
the target "briar" from the candidate list. -/
theorem solution_retention_violated :
    briar_word ∉
      filter_word_list ⟨arars_word, expected_feedback arars_word briar_word⟩
        [briar_word] := by decide

/-- C3 counterexample: resubmitting a feedback already present in the
history is not a no-op — `add_guess` appends it to the history again (and
no warning mechanism exists in the code). -/
theorem add_guess_duplicate_appends_again :
    arars_guess ∈ demo_state.guess_list ∧
    (add_guess demo_state arars_guess).guess_list ≠ demo_state.guess_list := by
  decide

/-- C3 amended: `add_guess` performs no duplicate check — resubmitting the
same feedback appends it to the history a second time and re-runs the
filter without any warning; the remaining word list is nevertheless
unchanged by the repeated filtering, since filtering by the same guess is
idempotent on duplicate-free lists. -/
theorem add_guess_duplicate_refilters (s : WordleFilter) (g : WordleGuess)
    (h : s.remaining_word_list.Nodup) :
    (add_guess (add_guess s g) g).remaining_word_list
      = (add_guess s g).remaining_word_list ∧
    (add_guess (add_guess s g) g).guess_list = s.guess_list ++ [g, g] := by
  refine ⟨filter_word_list_idem g s.remaining_word_list h, ?_⟩
  simp [add_guess]

/-- Witness for `add_guess_duplicate_refilters` at a concrete state. -/
theorem add_guess_duplicate_refilters_witness :
    ([briar_word] : List (List Char)).Nodup ∧
    ((add_guess (add_guess ⟨[briar_word], []⟩ arars_guess) arars_guess).remaining_word_list
        = (add_guess ⟨[briar_word], []⟩ arars_guess).remaining_word_list ∧
      (add_guess (add_guess ⟨[briar_word], []⟩ arars_guess) arars_guess).guess_list
        = [] ++ [arars_guess, arars_guess]) :=
  ⟨by decide, add_guess_duplicate_refilters ⟨[briar_word], []⟩ arars_guess (by decide)⟩

/-- C7: every feedback application via `add_guess` can only shrink the
remaining word list, and never adds a word that was not already
present. -/
theorem add_guess_monotonic_shrink (s : WordleFilter) (g : WordleGuess) :
    (add_guess s g).remaining_word_list.length ≤ s.remaining_word_list.length ∧
    ∀ w ∈ (add_guess s g).remaining_word_list, w ∈ s.remaining_word_list :=
  ⟨(filter_word_list_sublist g s.remaining_word_list).length_le,
   fun _ hw => (filter_word_list_sublist g s.remaining_word_list).subset hw⟩

/-- C10: on a duplicate-free remaining list, filtering is an
order-preserving sublist of the input, and each candidate's survival is
decided by the candidate and the feedback alone (the pointwise predicate
`should_remove`). -/
theorem filter_pointwise_order_preserving (g : WordleGuess)
    (l : List (List Char)) (h : l.Nodup) :
    (filter_word_list g l).Sublist l ∧
    filter_word_list g l = l.filter (fun w => !should_remove g w) :=
  ⟨filter_word_list_sublist g l, filter_word_list_eq_filter g l h⟩

/-- Witness for `filter_pointwise_order_preserving` at a concrete list. -/
theorem filter_pointwise_order_preserving_witness :
    ([briar_word, arars_word] : List (List Char)).Nodup ∧
    ((filter_word_list arars_guess [briar_word, arars_word]).Sublist
        [briar_word, arars_word] ∧
      filter_word_list arars_guess [briar_word, arars_word]
        = List.filter (fun w => !should_remove arars_guess w)
            [briar_word, arars_word]) :=
  ⟨by decide,
   filter_pointwise_order_preserving arars_guess [briar_word, arars_word] (by decide)⟩

/-- Embeds `Word` (Word.py lines 18-156): a dictionary entry.  Only the fields the
core logic ever reads are embedded: the letter string (validated to length
`LETTERS_IN_WORD` by `_set_string`), the commonness `level`, and the
mutable `score` (initialized to 0).  The remaining constructor metadata
(entropy vectors and similar floats) is never read by the filter or the
scorer. -/
structure Word where
  word : List Char
  level : Int
  score : Int
deriving DecidableEq, Repr

/-- Embeds `Word.__init__` together with `Word._set_string` (Word.py lines 24-80):
constructing a word fails with `ValueError` unless the string has length
`LETTERS_IN_WORD`; on success the string is stored unchanged and the score
starts at 0. -/
def mk_word (word_str : List Char) (level : Int) : Except String Word :=
  if word_str.length ≠ LETTERS_IN_WORD then
    .error "Word string must have length equal to word length."
  else
    .ok { word := word_str, level := level, score := 0 }

/-- Embeds `WordleGuess.__init__` (WordleGuess.py lines 33-51) applied to an
already-constructed `Word`: fails with `ValueError` unless the color list
has length `LETTERS_IN_WORD`; on success stores the word and the color
list unchanged. -/
def mk_wordle_guess (w : Word) (color_list : List LetterColor) :
    Except String WordleGuess :=
  if color_list.length ≠ LETTERS_IN_WORD then
    .error "List must be of length 5."
  else
    .ok { word := w.word, color_list := color_list }

/-- Constructing a feedback from a raw word string plus a verdict
sequence: build the `Word`, then the `WordleGuess`, propagating either
`ValueError` to the caller. -/
def mk_guess_of_string (s : List Char) (cl : List LetterColor) :
    Except String WordleGuess :=
  match mk_word s 0 with
  | .error e => .error e
  | .ok w => mk_wordle_guess w cl

/-- C9: feedback construction fails exactly when the guessed word or the
verdict sequence does not have length 5, and on success the object holds
exactly the given word and verdict sequence (nothing is truncated or
padded). -/
theorem guess_construction_length_check (s : List Char) (cl : List LetterColor) :
    ((mk_guess_of_string s cl).isOk = true ↔ (s.length = 5 ∧ cl.length = 5)) ∧
    ∀ g, mk_guess_of_string s cl = .ok g → g.word = s ∧ g.color_list = cl := by
  by_cases hs : s.length = 5
  · by_cases hc : cl.length = 5
    · refine ⟨⟨fun _ => ⟨hs, hc⟩, fun _ => ?_⟩, fun g hg => ?_⟩
      · simp [mk_guess_of_string, mk_word, mk_wordle_guess, LETTERS_IN_WORD, hs, hc,
          Except.isOk, Except.toBool]
      · simp only [mk_guess_of_string, mk_word, mk_wordle_guess, LETTERS_IN_WORD, hs, hc,
          ne_eq, not_true_eq_false, if_false, reduceCtorEq, reduceIte,
          Except.ok.injEq] at hg
        exact ⟨by rw [← hg], by rw [← hg]⟩
    · refine ⟨⟨fun h => ?_, fun h => absurd h.2 hc⟩, fun g hg => ?_⟩
      · simp [mk_guess_of_string, mk_word, mk_wordle_guess, LETTERS_IN_WORD, hs, hc,
          Except.isOk, Except.toBool] at h
      · simp [mk_guess_of_string, mk_word, mk_wordle_guess, LETTERS_IN_WORD, hs, hc] at hg
  · refine ⟨⟨fun h => ?_, fun h => absurd h.1 hs⟩, fun g hg => ?_⟩
    · simp [mk_guess_of_string, mk_word, LETTERS_IN_WORD, hs,
        Except.isOk, Except.toBool] at h
    · simp [mk_guess_of_string, mk_word, LETTERS_IN_WORD, hs] at hg

/-- Witness for `guess_construction_length_check`: a length-5 word and
verdict list construct successfully. -/
theorem guess_construction_length_check_witness :
    (mk_guess_of_string arars_word [YELLOW, GREEN, GREY, YELLOW, GREY]).isOk = true :=
  (guess_construction_length_check arars_word [YELLOW, GREEN, GREY, YELLOW, GREY]).1.mpr
    ⟨by decide, by decide⟩

/-- Embeds `_create_letter_dict` (WordleScorer.py lines 287-295): a fresh all-zero
letter-count dictionary.  The Python dict is keyed by the 26 lowercase
letters; it is embedded as a total function on characters. -/
def create_letter_dict : Char → Nat := fun _ => 0

/-- Embeds `LetterTracker` (WordleScorer.py lines 16-83): per-position letter
counts plus the aggregate count derived from them. -/
structure LetterTracker where
  indexed_letter_counts : List (Char → Nat)
  total_letter_counts : Char → Nat

/-- One iteration of `_add_indexed_letter_count`'s loop:
`self.indexed_letter_counts[index][letter] += 1`. -/
def bump_step (w : List Char) (cs : List (Char → Nat)) (i : Nat) :
    List (Char → Nat) :=
  cs.set i fun ch =>
    if ch = w.getD i ' ' then cs.getD i create_letter_dict ch + 1
    else cs.getD i create_letter_dict ch

/-- Embeds `LetterTracker._add_indexed_letter_count` (lines 40-52): for each index
of the word, add one to that index's count of the word's letter there. -/
def add_indexed_letter_count (cs : List (Char → Nat)) (w : List Char) :
    List (Char → Nat) :=
  (List.range w.length).foldl (bump_step w) cs

/-- Embeds `LetterTracker.__init__` (lines 22-38) together with
`_add_total_letter_count` (lines 54-63): count the letters of every word
per index, then derive each letter's total count as the sum of its
per-index counts. -/
def mk_letter_tracker (word_list : List Word) (word_length : Nat) :
    LetterTracker :=
  let indexed := word_list.foldl
    (fun cs v => add_indexed_letter_count cs v.word)
    (List.replicate word_length create_letter_dict)
  { indexed_letter_counts := indexed,
    total_letter_counts := fun ch =>
      ((List.range indexed.length).map
        fun i => indexed.getD i create_letter_dict ch).sum }

/-- Embeds `LetterTracker.get_letter_count` (lines 65-83): the aggregate count
when no index is supplied, else the count at that index. -/
def get_letter_count (t : LetterTracker) (letter : Char) : Option Nat → Nat
  | none => t.total_letter_counts letter
  | some index => t.indexed_letter_counts.getD index create_letter_dict letter

/-- Embeds `_calculate_letter_frequency` (WordleScorer.py lines 190-201). -/
def calculate_letter_frequency (word_list : List Word) : LetterTracker :=
  mk_letter_tracker word_list LETTERS_IN_WORD

/-- Embeds `_calculate_heuristic_score` (WordleScorer.py lines 204-237): sum, over
the five indices, the position-specific count weighted by `index_weight`,
plus the aggregate count weighted by `overall_weight` only when the letter
occurs exactly once in the word; store the result as the word's score. -/
def calculate_heuristic_score (w : Word) (t : LetterTracker)
    (index_weight overall_weight : Int) : Word :=
  let new_score := (List.range LETTERS_IN_WORD).foldl
    (fun s index =>
      let letter := w.word.getD index ' '
      let s := s + (get_letter_count t letter (some index) : Int) * index_weight
      if w.word.count letter = 1 then
        s + (get_letter_count t letter none : Int) * overall_weight
      else s)
    0
  { w with score := new_score }

/-- Spec-side position count: the number of candidate words holding letter
`ch` at position `i` ("count of letter w[i] at position i across the
candidate list"). -/
def position_count (word_list : List Word) (ch : Char) (i : Nat) : Nat :=
  (word_list.filter fun v => v.word.getD i ' ' = ch).length

/-- Spec-side aggregate count: total occurrences of `ch` across all
positions and all candidate words. -/
def aggregate_count (word_list : List Word) (ch : Char) : Nat :=
  (word_list.map fun v => v.word.count ch).sum

/-- The bump loop never changes the number of per-position tables. -/
theorem foldl_bump_length (w : List Char) :
    ∀ (ns : List Nat) (cs : List (Char → Nat)),
      (ns.foldl (bump_step w) cs).length = cs.length
  | [], _ => rfl
  | n :: ns, cs => by
    rw [List.foldl_cons, foldl_bump_length w ns]
    simp [bump_step]

/-- Pointwise effect of the bump loop over distinct in-range indices: the
count at table `i` of letter `ch` grows by one exactly when `i` is visited
and the word's letter at `i` is `ch`. -/
theorem foldl_bump_getD (w : List Char) :
    ∀ (ns : List Nat) (cs : List (Char → Nat)), ns.Nodup →
      (∀ j ∈ ns, j < cs.length) → ∀ (i : Nat) (ch : Char),
      (ns.foldl (bump_step w) cs).getD i create_letter_dict ch
        = cs.getD i create_letter_dict ch
            + (if i ∈ ns ∧ w.getD i ' ' = ch then 1 else 0)
  | [], _, _, _, _, _ => by simp
  | n :: ns, cs, hnd, hbd, i, ch => by
    have hn : n < cs.length := hbd n (List.mem_cons_self n ns)
    have hlen : (bump_step w cs n).length = cs.length := by simp [bump_step]
    have ih := foldl_bump_getD w ns (bump_step w cs n) (List.nodup_cons.mp hnd).2
      (fun j hj => hlen ▸ hbd j (List.mem_cons_of_mem n hj)) i ch
    rw [List.foldl_cons, ih]
    by_cases hin : i = n
    · subst hin
      have hnotmem : i ∉ ns := (List.nodup_cons.mp hnd).1
      have hset : (bump_step w cs i).getD i create_letter_dict ch
          = if ch = w.getD i ' ' then cs.getD i create_letter_dict ch + 1
            else cs.getD i create_letter_dict ch := by
        rw [bump_step, List.getD_eq_getElem?_getD, List.getElem?_set_self hn]
        rfl
      rw [hset]
      by_cases hch : ch = w.getD i ' '
      · rw [if_pos hch, if_neg (fun hh => hnotmem hh.1),
          if_pos ⟨List.mem_cons_self i ns, hch.symm⟩]
      · rw [if_neg hch, if_neg (fun hh => hnotmem hh.1),
          if_neg (fun hh => hch hh.2.symm)]
    · have hset : (bump_step w cs n).getD i create_letter_dict ch
          = cs.getD i create_letter_dict ch := by
        rw [bump_step, List.getD_eq_getElem?_getD,
          List.getElem?_set_ne (Ne.symm hin), ← List.getD_eq_getElem?_getD]
      rw [hset]
      simp [List.mem_cons, hin]

/-- Unfolding `position_count` over a cons cell. -/
theorem position_count_cons (v : Word) (vl : List Word) (ch : Char) (i : Nat) :
    position_count (v :: vl) ch i
      = (if v.word.getD i ' ' = ch then 1 else 0) + position_count vl ch i := by
  have hgd : v.word.getD i ' ' = v.word[i]?.getD ' ' :=
    List.getD_eq_getElem?_getD _ _ _
  by_cases h : v.word.getD i ' ' = ch
  · rw [hgd] at h
    simp only [position_count, List.filter_cons]
    simp [h, Nat.add_comm]
  · rw [hgd] at h
    simp only [position_count, List.filter_cons]
    simp [h]

/-- The word-list fold of the tracker constructor keeps the table count. -/
theorem foldl_words_length :
    ∀ (wl : List Word) (cs : List (Char → Nat)),
      (wl.foldl (fun cs v => add_indexed_letter_count cs v.word) cs).length
        = cs.length
  | [], _ => rfl
  | v :: vl, cs => by
    rw [List.foldl_cons, foldl_words_length vl]
    exact foldl_bump_length v.word _ cs

/-- Refinement of the tracker's word-list fold: table `i` counts, on top of
the accumulator, exactly the words holding `ch` at position `i`. -/
theorem foldl_words_getD :
    ∀ (wl : List Word) (cs : List (Char → Nat)),
      (∀ v ∈ wl, v.word.length = cs.length) → ∀ i < cs.length, ∀ (ch : Char),
      ((wl.foldl (fun cs v => add_indexed_letter_count cs v.word) cs).getD i
          create_letter_dict ch)
        = cs.getD i create_letter_dict ch + position_count wl ch i
  | [], _, _, _, _, _ => by simp [position_count]
  | v :: vl, cs, h5, i, hi, ch => by
    have hvlen : v.word.length = cs.length := h5 v (List.mem_cons_self v vl)
    have hlen : (add_indexed_letter_count cs v.word).length = cs.length :=
      foldl_bump_length v.word _ cs
    have ih := foldl_words_getD vl (add_indexed_letter_count cs v.word)
      (fun u hu => hlen ▸ h5 u (List.mem_cons_of_mem v hu)) i (hlen ▸ hi) ch
    rw [List.foldl_cons, ih, add_indexed_letter_count,
      foldl_bump_getD v.word _ cs (List.nodup_range _)
        (fun j hj => hvlen ▸ List.mem_range.mp hj) i ch,
      position_count_cons]
    have hmem : i ∈ List.range v.word.length := List.mem_range.mpr (hvlen ▸ hi)
    have hcond : (i ∈ List.range v.word.length ∧ v.word.getD i ' ' = ch)
        ↔ (v.word.getD i ' ' = ch) := and_iff_right hmem
    rw [if_congr hcond rfl rfl, add_assoc]

/-- The all-zero initial tables read back as zero everywhere. -/
theorem replicate_getD (n i : Nat) :
    (List.replicate n create_letter_dict).getD i create_letter_dict
      = create_letter_dict := by
  rw [List.getD_eq_getElem?_getD, List.getElem?_replicate]
  by_cases h : i < n
  · simp [h]
  · simp [h]

/-- The position-specific lookup of the built tracker equals the
spec-side position count. -/
theorem tracker_position_count (wl : List Word)
    (h5 : ∀ v ∈ wl, v.word.length = LETTERS_IN_WORD)
    (i : Nat) (hi : i < LETTERS_IN_WORD) (ch : Char) :
    get_letter_count (calculate_letter_frequency wl) ch (some i)
      = position_count wl ch i := by
  have hrep : (List.replicate LETTERS_IN_WORD create_letter_dict).length
      = LETTERS_IN_WORD := List.length_replicate _ _
  have h := foldl_words_getD wl (List.replicate LETTERS_IN_WORD create_letter_dict)
    (fun v hv => (h5 v hv).trans hrep.symm) i (hrep ▸ hi) ch
  rw [get_letter_count, calculate_letter_frequency, mk_letter_tracker]
  simpa [replicate_getD, create_letter_dict] using h

/-- Letter count of a word as a sum of per-position indicators. -/
theorem count_eq_range_sum :
    ∀ (w : List Char) (ch : Char),
      ((List.range w.length).map fun i => if w.getD i ' ' = ch then 1 else 0).sum
        = w.count ch
  | [], ch => by simp
  | c :: rest, ch => by
    rw [List.length_cons, List.range_succ_eq_map, List.map_cons, List.map_map,
      List.sum_cons]
    have : ((List.range rest.length).map
        ((fun i => if (c :: rest).getD i ' ' = ch then 1 else 0) ∘ Nat.succ)).sum
        = rest.count ch := by
      rw [← count_eq_range_sum rest ch]
      exact congrArg List.sum (List.map_congr_left fun i _ => by
        simp [Function.comp, List.getD_cons_succ])
    rw [this, List.count_cons]
    by_cases h : c = ch
    · simp [h, List.getD_cons_zero]; omega
    · simp [h, List.getD_cons_zero]

/-- Sums of pointwise-added maps split. -/
theorem sum_map_add_nat (f g : Nat → Nat) :
    ∀ ns : List Nat,
      (ns.map fun i => f i + g i).sum = (ns.map f).sum + (ns.map g).sum
  | [] => rfl
  | n :: ns => by
    rw [List.map_cons, List.map_cons, List.map_cons, List.sum_cons, List.sum_cons,
      List.sum_cons, sum_map_add_nat f g ns]
    omega

/-- Summing the position counts over the five positions yields the
aggregate count, for length-5 words. -/
theorem sum_position_counts :
    ∀ (wl : List Word) (ch : Char),
      (∀ v ∈ wl, v.word.length = LETTERS_IN_WORD) →
      ((List.range LETTERS_IN_WORD).map fun i => position_count wl ch i).sum
        = aggregate_count wl ch
  | [], ch, _ => by
    rw [aggregate_count]
    exact List.sum_eq_zero fun x hx => by
      obtain ⟨i, _, rfl⟩ := List.mem_map.mp hx
      simp [position_count]
  | v :: vl, ch, h5 => by
    have hv : v.word.length = LETTERS_IN_WORD := h5 v (List.mem_cons_self v vl)
    have hmap : ((List.range LETTERS_IN_WORD).map
        fun i => position_count (v :: vl) ch i)
        = (List.range LETTERS_IN_WORD).map
          fun i => (if v.word.getD i ' ' = ch then 1 else 0) + position_count vl ch i :=
      List.map_congr_left fun i _ => position_count_cons v vl ch i
    rw [hmap, sum_map_add_nat,
      sum_position_counts vl ch (fun u hu => h5 u (List.mem_cons_of_mem v hu))]
    have hcnt : ((List.range LETTERS_IN_WORD).map
        fun i => if v.word.getD i ' ' = ch then 1 else 0).sum = v.word.count ch := by
      rw [← hv]; exact count_eq_range_sum v.word ch
    rw [hcnt, aggregate_count, aggregate_count, List.map_cons, List.sum_cons]

/-- The aggregate lookup of the built tracker equals the spec-side
aggregate count. -/
theorem tracker_aggregate_count (wl : List Word)
    (h5 : ∀ v ∈ wl, v.word.length = LETTERS_IN_WORD) (ch : Char) :
    get_letter_count (calculate_letter_frequency wl) ch none
      = aggregate_count wl ch := by
  have hrep : (List.replicate LETTERS_IN_WORD create_letter_dict).length
      = LETTERS_IN_WORD := List.length_replicate _ _
  have hlen : (wl.foldl (fun cs v => add_indexed_letter_count cs v.word)
      (List.replicate LETTERS_IN_WORD create_letter_dict)).length
      = LETTERS_IN_WORD := (foldl_words_length wl _).trans hrep
  rw [get_letter_count, calculate_letter_frequency, mk_letter_tracker]
  simp only [hlen]
  rw [← sum_position_counts wl ch h5]
  exact congrArg List.sum (List.map_congr_left fun i hi => by
    have h := foldl_words_getD wl (List.replicate LETTERS_IN_WORD create_letter_dict)
      (fun v hv => (h5 v hv).trans hrep.symm) i (hrep ▸ List.mem_range.mp hi) ch
    simpa [replicate_getD, create_letter_dict] using h)

/-- The score loop of `_calculate_heuristic_score` accumulates the sum of
its per-index contributions. -/
theorem score_foldl_eq (t : LetterTracker) (w : Word) (Wp Wa : Int) :
    ∀ (ns : List Nat) (s0 : Int),
      ns.foldl
        (fun s index =>
          let letter := w.word.getD index ' '
          let s := s + (get_letter_count t letter (some index) : Int) * Wp
          if w.word.count letter = 1 then
            s + (get_letter_count t letter none : Int) * Wa
          else s)
        s0
      = s0 + (ns.map fun index =>
          (get_letter_count t (w.word.getD index ' ') (some index) : Int) * Wp
            + if w.word.count (w.word.getD index ' ') = 1 then
                (get_letter_count t (w.word.getD index ' ') none : Int) * Wa
              else 0).sum
  | [], s0 => by simp
  | n :: ns, s0 => by
    rw [List.foldl_cons, score_foldl_eq t w Wp Wa ns, List.map_cons, List.sum_cons]
    by_cases hc : w.word.count (w.word.getD n ' ') = 1
    · simp only [hc, if_true]; ring
    · simp only [hc, if_false]; ring

/-- C8: the raw heuristic score of a five-letter word over a tracker built
from the candidate list equals the spec's sum: per position, the
position-specific count times the position weight, plus (only when the
letter occurs exactly once in the word) the aggregate count times the
overall weight; the shipped weights are 5 and 1. -/
theorem heuristic_score_formula (word_list : List Word) (w : Word)
    (Wp Wa : Int) (_hw : w.word.length = LETTERS_IN_WORD)
    (h5 : ∀ v ∈ word_list, v.word.length = LETTERS_IN_WORD) :
    (calculate_heuristic_score w (calculate_letter_frequency word_list) Wp Wa).score
      = ((List.range LETTERS_IN_WORD).map fun i =>
          (position_count word_list (w.word.getD i ' ') i : Int) * Wp
            + if w.word.count (w.word.getD i ' ') = 1 then
                (aggregate_count word_list (w.word.getD i ' ') : Int) * Wa
              else 0).sum := by
  rw [calculate_heuristic_score]
  simp only
  rw [score_foldl_eq, zero_add]
  exact congrArg List.sum (List.map_congr_left fun i hi => by
    rw [tracker_position_count word_list h5 i (List.mem_range.mp hi),
      tracker_aggregate_count word_list h5])

/-- A small concrete candidate pool used by the scoring witnesses. -/
def demo_pool : List Word :=
  [⟨"aaaaa".toList, 0, 0⟩, ⟨"bcdea".toList, 0, 0⟩]

/-- Witness for `heuristic_score_formula` on a concrete pool and word. -/
theorem heuristic_score_formula_witness :
    ((⟨"aaaaa".toList, 0, 0⟩ : Word).word.length = LETTERS_IN_WORD
      ∧ ∀ v ∈ demo_pool, v.word.length = LETTERS_IN_WORD) ∧
    (calculate_heuristic_score ⟨"aaaaa".toList, 0, 0⟩
        (calculate_letter_frequency demo_pool) 5 1).score
      = ((List.range LETTERS_IN_WORD).map fun i =>
          (position_count demo_pool ((⟨"aaaaa".toList, 0, 0⟩ : Word).word.getD i ' ') i : Int) * 5
            + if (⟨"aaaaa".toList, 0, 0⟩ : Word).word.count
                  ((⟨"aaaaa".toList, 0, 0⟩ : Word).word.getD i ' ') = 1 then
                (aggregate_count demo_pool
                  ((⟨"aaaaa".toList, 0, 0⟩ : Word).word.getD i ' ') : Int) * 1
              else 0).sum :=
  ⟨⟨by decide, by decide⟩,
   heuristic_score_formula demo_pool ⟨"aaaaa".toList, 0, 0⟩ 5 1 (by decide) (by decide)⟩

/-- Python's built-in `round`: round to the nearest integer, halves to the
even integer. -/
def python_round (q : ℚ) : Int :=
  let f := ⌊q⌋
  if q - f < 1 / 2 then f
  else if (1 : ℚ) / 2 < q - f then f + 1
  else if f % 2 = 0 then f else f + 1

/-- Embeds `_clamp_integer` (WordleScorer.py lines 269-284): round to the nearest
integer, then clamp into `[minimum, maximum]` via `max(minimum, min(score,
maximum))`. -/
def clamp_integer (score : ℚ) (minimum maximum : Int) : Int :=
  max minimum (min (python_round score) maximum)

/-- Embeds `_normalize_scores` (WordleScorer.py lines 240-267).  `none` embeds the
Python exceptions: `min`/`max` of an empty list raise `ValueError`, and
when every score is equal the integer division by `existing_range = 0`
raises `ZeroDivisionError`.  Otherwise each score becomes
`clamp((old - existing_min) / existing_range * target_range +
existing_min)` — note the code adds `existing_min_score`, not the target
`minimum`. -/
def normalize_scores (word_list : List Word) (minimum maximum : Int) :
    Option (List Word) :=
  match word_list with
  | [] => none
  | w0 :: rest =>
    let existing_min := rest.foldl (fun m v => min m v.score) w0.score
    let existing_max := rest.foldl (fun m v => max m v.score) w0.score
    let existing_range := existing_max - existing_min
    let target_range := maximum - minimum
    if existing_range = 0 then none
    else
      some ((w0 :: rest).map fun w =>
        { w with
          score := clamp_integer
            (((w.score - existing_min : Int) : ℚ) / (existing_range : ℚ)
              * (target_range : ℚ) + (existing_min : ℚ))
            minimum maximum })

/-- A word list whose raw scores all tie. -/
def tied_words : List Word :=
  [⟨"aaaaa".toList, 0, 7⟩, ⟨"bbbbb".toList, 0, 7⟩]

/-- A word list with distinct raw scores whose minimum exceeds 99. -/
def spread_words : List Word :=
  [⟨"aaaaa".toList, 0, 100⟩, ⟨"bbbbb".toList, 0, 298⟩]

/-- C4: the claim fails on the code.  On a non-empty word list whose raw
scores all tie, `_normalize_scores` divides by `existing_range = 0` and
raises `ZeroDivisionError` (embedded as `none`) instead of assigning a
constant score. -/
theorem normalize_all_equal_divides_by_zero :
    normalize_scores tied_words 0 99 = none := by decide

/-- C5: the claim fails on the code.  The code adds `existing_min_score`
instead of the target minimum 0, so with raw scores 100 and 298 both
candidates clamp to 99: the minimum-raw candidate receives 99, not the
claimed 0. -/
theorem normalize_adds_existing_min :
    normalize_scores spread_words 0 99
      = some [⟨"aaaaa".toList, 0, 99⟩, ⟨"bbbbb".toList, 0, 99⟩] := by
  rw [show spread_words
      = (⟨"aaaaa".toList, 0, 100⟩ : Word) :: [⟨"bbbbb".toList, 0, 298⟩] from rfl]
  rw [normalize_scores]
  norm_num [List.foldl, clamp_integer, python_round]

/-- Insert a word into an already-sorted (descending) list, placing it
before the first word of score ≤ its own, so that earlier-arriving words
win ties. -/
def insert_desc (w : Word) : List Word → List Word
  | [] => [w]
  | x :: xs => if x.score ≤ w.score then w :: x :: xs else x :: insert_desc w xs

/-- Embeds `sort_word_list_by_score` (WordleScorer.py lines 99-109): Python's
`list.sort(key=get_score, reverse=True)` is the stable descending sort by
score; a stable descending sort is unique, and is embedded as stable
insertion sort via `insert_desc`. -/
def sort_word_list_by_score : List Word → List Word
  | [] => []
  | w :: ws => insert_desc w (sort_word_list_by_score ws)

/-- The first word of a list attaining the maximal score: earlier words
win ties against later ones. -/
def first_max : List Word → Option Word
  | [] => none
  | w :: ws =>
    match first_max ws with
    | none => some w
    | some m => if w.score < m.score then some m else some w

/-- The heuristic pass up to normalization (`_score_words_heuristic`,
WordleScorer.py lines 178-186): build the tracker, score every word with
the shipped weights 5 and 1, then normalize into `[0, 99]`; the word order
is still the original one. -/
def scored_normalized (word_list : List Word) : Option (List Word) :=
  normalize_scores
    (word_list.map fun w =>
      calculate_heuristic_score w (calculate_letter_frequency word_list) 5 1)
    0 99

/-- Embeds `_score_words_heuristic` (lines 168-187): score, normalize, then sort
descending; `none` embeds the raised `ValueError`/`ZeroDivisionError`. -/
def score_words_heuristic (word_list : List Word) : Option (List Word) :=
  (scored_normalized word_list).map sort_word_list_by_score

/-- Membership through `insert_desc`. -/
theorem mem_insert_desc (w : Word) :
    ∀ (l : List Word) (x : Word), x ∈ insert_desc w l ↔ x = w ∨ x ∈ l
  | [], x => by simp [insert_desc]
  | y :: ys, x => by
    rw [insert_desc]
    by_cases hle : y.score ≤ w.score
    · rw [if_pos hle]
      simp [List.mem_cons]
    · rw [if_neg hle]
      simp only [List.mem_cons, mem_insert_desc w ys x]
      tauto

/-- Sorting preserves membership. -/
theorem mem_sort_word_list :
    ∀ (l : List Word) (x : Word), x ∈ sort_word_list_by_score l ↔ x ∈ l
  | [], _ => Iff.rfl
  | w :: ws, x => by
    rw [sort_word_list_by_score, mem_insert_desc w _ x, mem_sort_word_list ws x]
    simp [List.mem_cons]

/-- Fact: `insert_desc` preserves descending sortedness. -/
theorem pairwise_insert_desc (w : Word) :
    ∀ l : List Word, l.Pairwise (fun a b => b.score ≤ a.score) →
      (insert_desc w l).Pairwise (fun a b => b.score ≤ a.score)
  | [], _ => by simp [insert_desc]
  | x :: xs, h => by
    rw [insert_desc]
    by_cases hle : x.score ≤ w.score
    · rw [if_pos hle]
      refine List.Pairwise.cons ?_ h
      intro y hy
      rcases List.mem_cons.mp hy with rfl | hy'
      · exact hle
      · exact le_trans ((List.pairwise_cons.mp h).1 y hy') hle
    · rw [if_neg hle]
      refine List.Pairwise.cons ?_
        (pairwise_insert_desc w xs (List.pairwise_cons.mp h).2)
      intro y hy
      rcases (mem_insert_desc w xs y).mp hy with rfl | hy'
      · exact le_of_lt (lt_of_not_le hle)
      · exact (List.pairwise_cons.mp h).1 y hy'

/-- The sort's output is sorted by non-increasing score. -/
theorem sorted_sort_word_list :
    ∀ l : List Word,
      (sort_word_list_by_score l).Pairwise (fun a b => b.score ≤ a.score)
  | [] => List.Pairwise.nil
  | w :: ws => pairwise_insert_desc w _ (sorted_sort_word_list ws)

/-- The head of the sorted list is the first word of maximal score in the
original order (stability at the top). -/
theorem head_sort_eq_first_max :
    ∀ l : List Word, (sort_word_list_by_score l).head? = first_max l
  | [] => rfl
  | w :: ws => by
    rw [sort_word_list_by_score, first_max]
    have ih := head_sort_eq_first_max ws
    cases hs : sort_word_list_by_score ws with
    | nil =>
      rw [hs] at ih
      rw [← ih]
      rfl
    | cons x xs =>
      rw [hs] at ih
      rw [← ih, insert_desc]
      by_cases hle : x.score ≤ w.score
      · rw [if_pos hle]
        simp [Int.not_lt.mpr hle]
      · rw [if_neg hle]
        simp [lt_of_not_le hle]

/-- Clamping into `[mn, mx]` lands in `[mn, mx]`. -/
theorem clamp_integer_bounds (q : ℚ) (mn mx : Int) (h : mn ≤ mx) :
    mn ≤ clamp_integer q mn mx ∧ clamp_integer q mn mx ≤ mx :=
  ⟨le_max_left _ _, max_le h (min_le_right _ _)⟩

/-- Every score produced by a successful `_normalize_scores` run lies in
the target band. -/
theorem normalize_scores_mem_bounds (wl out : List Word) (mn mx : Int)
    (h : mn ≤ mx) (hn : normalize_scores wl mn mx = some out) :
    ∀ w ∈ out, mn ≤ w.score ∧ w.score ≤ mx := by
  cases wl with
  | nil => simp [normalize_scores] at hn
  | cons w0 rest =>
    rw [normalize_scores] at hn
    split at hn
    · cases hn
    · cases hn
      intro w hw
      obtain ⟨v, _, rfl⟩ := List.mem_map.mp hw
      exact clamp_integer_bounds _ mn mx h

/-- Heads of descending-sorted lists dominate every member. -/
theorem head_dominates_of_sorted (out : List Word)
    (h : out.Pairwise (fun a b => b.score ≤ a.score)) (w0 : Word)
    (hw : out.head? = some w0) : ∀ v ∈ out, v.score ≤ w0.score := by
  cases out with
  | nil => cases hw
  | cons x xs =>
    obtain rfl : x = w0 := by simpa using hw
    intro v hv
    rcases List.mem_cons.mp hv with rfl | hv'
    · exact le_refl _
    · exact (List.pairwise_cons.mp h).1 v hv'

/-- C6: after a completed heuristic score-and-sort pass, every stored
score lies in `[0, 99]`, the output is ordered by non-increasing score,
its head is the first word of the normalized (original-order) list that
attains the maximal score — stable tie-breaking — and the head's score
dominates every member. -/
theorem score_sort_bounds_order_stability (wl normed out : List Word)
    (hn : scored_normalized wl = some normed)
    (ho : score_words_heuristic wl = some out) :
    (∀ w ∈ out, 0 ≤ w.score ∧ w.score ≤ 99) ∧
    out.Pairwise (fun a b => b.score ≤ a.score) ∧
    out.head? = first_max normed ∧
    ∀ w0, out.head? = some w0 → ∀ v ∈ out, v.score ≤ w0.score := by
  have hout : out = sort_word_list_by_score normed := by
    rw [score_words_heuristic, hn] at ho
    exact (Option.some.inj ho).symm
  subst hout
  have hbounds : ∀ w ∈ normed, 0 ≤ w.score ∧ w.score ≤ 99 :=
    normalize_scores_mem_bounds _ normed 0 99 (by norm_num) hn
  refine ⟨?_, sorted_sort_word_list normed, head_sort_eq_first_max normed, ?_⟩
  · intro w hw
    exact hbounds w ((mem_sort_word_list normed w).mp hw)
  · intro w0 hw0
    exact head_dominates_of_sorted _ (sorted_sort_word_list normed) w0 hw0

/-- Concrete pool exercising the full score-and-sort pass. -/
def stability_pool : List Word :=
  [⟨"aaaaa".toList, 0, 0⟩, ⟨"bcdef".toList, 0, 0⟩]

/-- The normalized (still original-order) scores of `stability_pool`. -/
def stability_normed : List Word :=
  [⟨"aaaaa".toList, 0, 25⟩, ⟨"bcdef".toList, 0, 99⟩]

/-- The sorted output of the pass over `stability_pool`. -/
def stability_out : List Word :=
  [⟨"bcdef".toList, 0, 99⟩, ⟨"aaaaa".toList, 0, 25⟩]

/-- Concrete evaluation: scoring then normalizing `stability_pool`. -/
theorem stability_pool_scored :
    scored_normalized stability_pool = some stability_normed := by
  rw [scored_normalized]
  have hmap : stability_pool.map
      (fun w => calculate_heuristic_score w (calculate_letter_frequency stability_pool) 5 1)
      = [⟨"aaaaa".toList, 0, 25⟩, ⟨"bcdef".toList, 0, 30⟩] := by decide
  rw [hmap,
    show ([⟨"aaaaa".toList, 0, 25⟩, ⟨"bcdef".toList, 0, 30⟩] : List Word)
      = (⟨"aaaaa".toList, 0, 25⟩ : Word) :: [⟨"bcdef".toList, 0, 30⟩] from rfl,
    normalize_scores]
  norm_num [List.foldl, clamp_integer, python_round, stability_normed]

/-- Concrete evaluation: the full heuristic pass over `stability_pool`. -/
theorem stability_pool_pass :
    score_words_heuristic stability_pool = some stability_out := by
  rw [score_words_heuristic, stability_pool_scored]
  decide

/-- Witness for `score_sort_bounds_order_stability` on `stability_pool`. -/
theorem score_sort_bounds_order_stability_witness :
    (scored_normalized stability_pool = some stability_normed ∧
      score_words_heuristic stability_pool = some stability_out) ∧
    ((∀ w ∈ stability_out, 0 ≤ w.score ∧ w.score ≤ 99) ∧
      stability_out.Pairwise (fun a b => b.score ≤ a.score) ∧
      stability_out.head? = first_max stability_normed ∧
      ∀ w0, stability_out.head? = some w0 →
        ∀ v ∈ stability_out, v.score ≤ w0.score) :=
  ⟨⟨stability_pool_scored, stability_pool_pass⟩,
   score_sort_bounds_order_stability stability_pool stability_normed stability_out
     stability_pool_scored stability_pool_pass⟩

end WordleSpec
